import Mathlib

/-!
Verification development for the isentropic-flow calculator core
(`aerocalc.py`): the four forward relations, the bracketed bisection
root-finder, the per-quantity inverse mappings, and the calculator façade.

Modelling conventions.
Python floats are modelled as the type `Fl`: an exact real number
(`Fl.fin`), a signed infinity, or `nan`; float arithmetic is exact real
arithmetic (rounding and overflow are not modelled), and comparisons
follow IEEE semantics (`nan` is incomparable).  Division of a nonzero
float literal by float `0.0` raises `ZeroDivisionError` in Python; the
single place the façade can hit this (the `1 / M` factor of `A/A*` while
composing the result dictionary) is modelled by the `CalcResult.raised`
constructor.  `math.sqrt` on a nonnegative float is `Real.sqrt`; its
behaviour on negative arguments (a Python `ValueError`) is outside the
γ > 1 domain considered here.  All reasoning assumes a finite γ with
γ > 1, the documented precondition of the core.
-/

/-- Model of a Python float: a finite real, `+inf`, `-inf`, or `nan`. -/
inductive Fl where
  | fin : ℝ → Fl
  | pinf : Fl
  | ninf : Fl
  | nan : Fl


namespace Fl

/-- Python `x < y` on floats: `nan` compares false with everything. -/
def lt : Fl → Fl → Prop
  | .fin x, .fin y => x < y
  | .fin _, .pinf => True
  | .fin _, .ninf => False
  | .fin _, .nan => False
  | .pinf, _ => False
  | .ninf, .fin _ => True
  | .ninf, .pinf => True
  | .ninf, .ninf => False
  | .ninf, .nan => False
  | .nan, _ => False

/-- Python `x <= y` on floats: `nan` compares false with everything. -/
def le : Fl → Fl → Prop
  | .fin x, .fin y => x ≤ y
  | .fin _, .pinf => True
  | .fin _, .ninf => False
  | .fin _, .nan => False
  | .pinf, .pinf => True
  | .pinf, _ => False
  | .ninf, .nan => False
  | .ninf, _ => True
  | .nan, _ => False

noncomputable instance lt.instDecidable : ∀ a b : Fl, Decidable (lt a b)
  | .fin x, .fin y => inferInstanceAs (Decidable (x < y))
  | .fin _, .pinf => isTrue trivial
  | .fin _, .ninf => isFalse id
  | .fin _, .nan => isFalse id
  | .pinf, .fin _ => isFalse id
  | .pinf, .pinf => isFalse id
  | .pinf, .ninf => isFalse id
  | .pinf, .nan => isFalse id
  | .ninf, .fin _ => isTrue trivial
  | .ninf, .pinf => isTrue trivial
  | .ninf, .ninf => isFalse id
  | .ninf, .nan => isFalse id
  | .nan, .fin _ => isFalse id
  | .nan, .pinf => isFalse id
  | .nan, .ninf => isFalse id
  | .nan, .nan => isFalse id

noncomputable instance le.instDecidable : ∀ a b : Fl, Decidable (le a b)
  | .fin x, .fin y => inferInstanceAs (Decidable (x ≤ y))
  | .fin _, .pinf => isTrue trivial
  | .fin _, .ninf => isFalse id
  | .fin _, .nan => isFalse id
  | .pinf, .fin _ => isFalse id
  | .pinf, .pinf => isTrue trivial
  | .pinf, .ninf => isFalse id
  | .pinf, .nan => isFalse id
  | .ninf, .fin _ => isTrue trivial
  | .ninf, .pinf => isTrue trivial
  | .ninf, .ninf => isTrue trivial
  | .ninf, .nan => isFalse id
  | .nan, .fin _ => isFalse id
  | .nan, .pinf => isFalse id
  | .nan, .ninf => isFalse id
  | .nan, .nan => isFalse id

/-- Float subtraction (exact on finite values, IEEE on special values). -/
noncomputable def sub : Fl → Fl → Fl
  | .nan, _ => .nan
  | _, .nan => .nan
  | .fin x, .fin y => .fin (x - y)
  | .fin _, .pinf => .ninf
  | .fin _, .ninf => .pinf
  | .pinf, .fin _ => .pinf
  | .pinf, .pinf => .nan
  | .pinf, .ninf => .pinf
  | .ninf, .fin _ => .ninf
  | .ninf, .pinf => .ninf
  | .ninf, .ninf => .nan

/-- Float multiplication (exact on finite values, IEEE on special values;
`0 * inf = nan`). -/
noncomputable def mul : Fl → Fl → Fl
  | .nan, _ => .nan
  | _, .nan => .nan
  | .fin x, .fin y => .fin (x * y)
  | .fin x, .pinf => if 0 < x then .pinf else if x < 0 then .ninf else .nan
  | .fin x, .ninf => if 0 < x then .ninf else if x < 0 then .pinf else .nan
  | .pinf, .fin y => if 0 < y then .pinf else if y < 0 then .ninf else .nan
  | .ninf, .fin y => if 0 < y then .ninf else if y < 0 then .pinf else .nan
  | .pinf, .pinf => .pinf
  | .pinf, .ninf => .ninf
  | .ninf, .pinf => .ninf
  | .ninf, .ninf => .pinf

/-- Python `abs` on floats. -/
noncomputable def fabs : Fl → Fl
  | .fin x => .fin |x|
  | .pinf => .pinf
  | .ninf => .pinf
  | .nan => .nan

/-- `math.sqrt` on floats.  (`math.sqrt` of a negative float raises
`ValueError` in Python; that case is unreachable for γ > 1, the only
regime treated here, and is mapped to `nan`.) -/
noncomputable def fsqrt : Fl → Fl
  | .fin x => .fin (Real.sqrt x)
  | .pinf => .pinf
  | .ninf => .nan
  | .nan => .nan

/-- `math.isfinite`. -/
def isFinite : Fl → Bool
  | .fin _ => true
  | _ => false

/-- The real value of a finite float (junk value `0` otherwise). -/
def toVal : Fl → ℝ
  | .fin x => x
  | _ => 0

end Fl

/-! ### The four forward relations (`aerocalc.py` lines 7–19) -/

/-- `T0_over_T(M, gamma) = 1 + (gamma - 1) / 2 * M ** 2`. -/
noncomputable def T0_over_T (M gamma : ℝ) : ℝ := 1 + (gamma - 1) / 2 * M ^ 2

/-- `P0_over_P(M, gamma) = T0_over_T(M, gamma) ** (gamma / (gamma - 1))`. -/
noncomputable def P0_over_P (M gamma : ℝ) : ℝ :=
  T0_over_T M gamma ^ (gamma / (gamma - 1))

/-- `rho0_over_rho(M, gamma) = T0_over_T(M, gamma) ** (1 / (gamma - 1))`. -/
noncomputable def rho0_over_rho (M gamma : ℝ) : ℝ :=
  T0_over_T M gamma ^ (1 / (gamma - 1))

/-- `A_over_Astar(M, gamma) = (1 / M) * ((2 / (gamma + 1)) * T0_over_T(M, gamma))
    ** ((gamma + 1) / (2 * (gamma - 1)))`. -/
noncomputable def A_over_Astar (M gamma : ℝ) : ℝ :=
  (1 / M) * ((2 / (gamma + 1)) * T0_over_T M gamma) ^ ((gamma + 1) / (2 * (gamma - 1)))

/-! ### Bisection root-finder (`aerocalc.py` lines 21–35)

The `for` loop of `solve_bisection` carries the state `(a, b, fa)`: the
stored low-endpoint residual `fa` is the reference for the bracket-update
test `fa * fm <= 0`, and `fb` is used only in the initial sign check.
`bisect_loop` is that loop on the residuals of a finite target, and
`bisect_steps` counts how many loop iterations actually execute. -/

/-- The loop of `solve_bisection` for a finite target `t`, with fuel
`n = max_iter`; returns `0.5 * (a + b)` when the fuel is exhausted. -/
noncomputable def bisect_loop (f : ℝ → ℝ) (t fa a b tol : ℝ) : ℕ → ℝ
  | 0 => 0.5 * (a + b)
  | n + 1 =>
    let mid := 0.5 * (a + b)
    let fm := f mid - t
    if |fm| < tol then mid
    else if fa * fm ≤ 0 then bisect_loop f t fa a mid tol n
    else bisect_loop f t fm mid b tol n

/-- Number of loop iterations `bisect_loop` actually executes. -/
noncomputable def bisect_steps (f : ℝ → ℝ) (t fa a b tol : ℝ) : ℕ → ℕ
  | 0 => 0
  | n + 1 =>
    let mid := 0.5 * (a + b)
    let fm := f mid - t
    if |fm| < tol then 1
    else if fa * fm ≤ 0 then 1 + bisect_steps f t fa a mid tol n
    else 1 + bisect_steps f t fm mid b tol n

/-- The loop of `solve_bisection` on float residuals (general target). -/
noncomputable def bisect_loopF (f : ℝ → ℝ) (target : Fl) (fa : Fl) (a b tol : ℝ) :
    ℕ → Fl
  | 0 => .fin (0.5 * (a + b))
  | n + 1 =>
    let mid := 0.5 * (a + b)
    let fm := Fl.sub (.fin (f mid)) target
    if Fl.lt fm.fabs (.fin tol) then .fin mid
    else if Fl.le (Fl.mul fa fm) (.fin 0) then bisect_loopF f target fa a mid tol n
    else bisect_loopF f target fm mid b tol n

/-- `solve_bisection(f, target, low, high, tol=1e-10, max_iter=200)`:
sign check `fa * fb > 0` returns `nan`, otherwise the bisection loop. -/
noncomputable def solve_bisection (f : ℝ → ℝ) (target : Fl) (low high tol : ℝ)
    (max_iter : ℕ) : Fl :=
  let fa := Fl.sub (.fin (f low)) target
  let fb := Fl.sub (.fin (f high)) target
  if Fl.lt (.fin 0) (Fl.mul fa fb) then .nan
  else bisect_loopF f target fa low high tol max_iter

/-! ### Inverse mappings (`aerocalc.py` lines 37–57).
The call sites pass `solve_bisection`'s defaults `tol = 1e-10`,
`max_iter = 200` explicitly. -/

/-- `mach_from_T0T`: closed form with the `T0T < 1` guard. -/
noncomputable def mach_from_T0T (T0T : Fl) (gamma : ℝ) : Fl :=
  if Fl.lt T0T (.fin 1) then .nan
  else Fl.fsqrt (Fl.mul (.fin (2 / (gamma - 1))) (Fl.sub T0T (.fin 1)))

/-- `mach_from_P0P`: bisection of `P0_over_P` over `[1e-8, 50]`. -/
noncomputable def mach_from_P0P (P0P : Fl) (gamma : ℝ) : Fl :=
  solve_bisection (fun M => P0_over_P M gamma) P0P 1e-8 50 1e-10 200

/-- `mach_from_rho0rho`: bisection of `rho0_over_rho` over `[1e-8, 50]`. -/
noncomputable def mach_from_rho0rho (rho0rho : Fl) (gamma : ℝ) : Fl :=
  solve_bisection (fun M => rho0_over_rho M gamma) rho0rho 1e-8 50 1e-10 200

/-- `mach_from_AAstar`: the `Aa < 1` guard, then bisection of `A_over_Astar`
over `[1e-8, 1 - 1e-8]` for the `"subsonic"` branch and `[1 + 1e-8, 50]`
for any other branch string. -/
noncomputable def mach_from_AAstar (Aa : Fl) (gamma : ℝ) (branch : String) : Fl :=
  if Fl.lt Aa (.fin 1) then .nan
  else if branch = "subsonic" then
    solve_bisection (fun M => A_over_Astar M gamma) Aa 1e-8 (1 - 1e-8) 1e-10 200
  else
    solve_bisection (fun M => A_over_Astar M gamma) Aa (1 + 1e-8) 50 1e-10 200

/-! ### Calculator façade (`aerocalc.py` lines 59–82) -/

/-- The five-entry result dictionary of `isentropic_calculator`. -/
structure RatioSet where
  mach : ℝ
  t0 : ℝ
  p0 : ℝ
  rho0 : ℝ
  area : ℝ


/-- Outcome of one `isentropic_calculator` call: a Python exception
(`ZeroDivisionError` from `1 / M` at `M = 0` while composing the result
dictionary), `None`, or the ratio dictionary. -/
inductive CalcResult where
  | raised : CalcResult
  | noResult : CalcResult
  | ratios : RatioSet → CalcResult


/-- The dispatch on `input_type` at the top of `isentropic_calculator`:
`none` models the final `else: return None` (unrecognized kind). -/
noncomputable def resolve_M (input_type : String) (input_value : Fl) (gamma : ℝ)
    (branch : String) : Option Fl :=
  if input_type = "Mach" then some input_value
  else if input_type = "T0/T" then some (mach_from_T0T input_value gamma)
  else if input_type = "P0/P" then some (mach_from_P0P input_value gamma)
  else if input_type = "ρ0/ρ" then some (mach_from_rho0rho input_value gamma)
  else if input_type = "A/A*" then some (mach_from_AAstar input_value gamma branch)
  else none

/-- `isentropic_calculator(input_type, input_value, gamma=1.4, branch="subsonic")`:
resolve `M`, return `None` if `M` is not finite, otherwise build the ratio
dictionary — whose `A/A*` entry divides by zero when `M = 0`. -/
noncomputable def isentropic_calculator (input_type : String) (input_value : Fl)
    (gamma : ℝ) (branch : String) : CalcResult :=
  match resolve_M input_type input_value gamma branch with
  | none => .noResult
  | some M =>
    match M with
    | .fin m =>
      if m = 0 then .raised
      else .ratios ⟨m, T0_over_T m gamma, P0_over_P m gamma,
                    rho0_over_rho m gamma, A_over_Astar m gamma⟩
    | _ => .noResult

/-! ### Executable rational twins for the γ = 1.4 evaluations.
At γ = 7/5 the area-ratio exponent `(γ+1)/(2(γ-1))` is the natural number
3, so `A_over_Astar` restricted to rational Mach numbers is the rational
function below, and the bisection loop runs in exact rational arithmetic. -/

/-- `A_over_Astar` at γ = 7/5 on rationals (exponent 3). -/
def A_over_AstarQ (M : ℚ) : ℚ :=
  (1 / M) * ((2 / (7 / 5 + 1)) * (1 + (7 / 5 - 1) / 2 * M ^ 2)) ^ (3 : ℕ)

/-- Rational twin of `bisect_loop`. -/
def bisect_loopQ (f : ℚ → ℚ) (t fa a b tol : ℚ) : ℕ → ℚ
  | 0 => 0.5 * (a + b)
  | n + 1 =>
    let mid := 0.5 * (a + b)
    let fm := f mid - t
    if |fm| < tol then mid
    else if fa * fm ≤ 0 then bisect_loopQ f t fa a mid tol n
    else bisect_loopQ f t fm mid b tol n

/-! ### Reduction lemmas for finite inputs -/

lemma bisect_loopF_fin (f : ℝ → ℝ) (tol : ℝ) :
    ∀ (n : ℕ) (t fa a b : ℝ),
      bisect_loopF f (.fin t) (.fin fa) a b tol n = .fin (bisect_loop f t fa a b tol n)
  | 0, t, fa, a, b => rfl
  | n + 1, t, fa, a, b => by
    simp only [bisect_loopF, bisect_loop, Fl.sub, Fl.fabs, Fl.mul, Fl.lt, Fl.le]
    split_ifs with h1 h2
    · rfl
    · exact bisect_loopF_fin f tol n t fa a _
    · exact bisect_loopF_fin f tol n t _ _ b

lemma solve_bisection_fin (f : ℝ → ℝ) (t low high tol : ℝ) (n : ℕ) :
    solve_bisection f (.fin t) low high tol n =
      if 0 < (f low - t) * (f high - t) then Fl.nan
      else .fin (bisect_loop f t (f low - t) low high tol n) := by
  simp only [solve_bisection, Fl.sub, Fl.mul, Fl.lt]
  split_ifs with h
  · rfl
  · exact bisect_loopF_fin f tol n t _ low high

lemma mach_from_T0T_fin_lt (gamma v : ℝ) (h : v < 1) :
    mach_from_T0T (.fin v) gamma = .nan := by
  simp [mach_from_T0T, Fl.lt, h]

lemma mach_from_T0T_fin_ge (gamma v : ℝ) (h : ¬ v < 1) :
    mach_from_T0T (.fin v) gamma = .fin (Real.sqrt (2 / (gamma - 1) * (v - 1))) := by
  simp [mach_from_T0T, Fl.lt, h, Fl.sub, Fl.mul, Fl.fsqrt]

/-! ### Façade structure: claims C1, C3, C7, C9, C10 -/

/-- C1 (amended): with γ > 1, `isentropic_calculator` returns `None` exactly
when the input kind is unrecognized or the resolved Mach number is not
finite; the kind is unrecognized exactly when it is none of the five
dispatch strings; and whenever the resolved Mach number is finite and
nonzero the call returns the complete five-entry ratio set computed from
that same `M` and γ.  (At a finite resolved `M = 0` the `A/A*` entry's
`1 / M` raises `ZeroDivisionError` instead — see the counterexample.) -/
theorem calculator_none_iff_unrecognized_or_nonfinite
    (input_type : String) (input_value : Fl) (gamma : ℝ) (branch : String)
    (hgamma : 1 < gamma) :
    (isentropic_calculator input_type input_value gamma branch = .noResult ↔
      resolve_M input_type input_value gamma branch = none ∨
      ∃ F, resolve_M input_type input_value gamma branch = some F ∧
        F.isFinite = false) ∧
    (resolve_M input_type input_value gamma branch = none ↔
      input_type ≠ "Mach" ∧ input_type ≠ "T0/T" ∧ input_type ≠ "P0/P" ∧
      input_type ≠ "ρ0/ρ" ∧ input_type ≠ "A/A*") ∧
    (∀ m : ℝ, resolve_M input_type input_value gamma branch = some (.fin m) →
      m ≠ 0 →
      isentropic_calculator input_type input_value gamma branch =
        .ratios ⟨m, T0_over_T m gamma, P0_over_P m gamma, rho0_over_rho m gamma,
                 A_over_Astar m gamma⟩) := by
  refine ⟨?_, ?_, ?_⟩
  · rcases h : resolve_M input_type input_value gamma branch with _ | F
    · simp [isentropic_calculator, h]
    · cases F with
      | fin m =>
        by_cases hm : m = 0 <;> simp [isentropic_calculator, h, hm, Fl.isFinite]
      | pinf => simp [isentropic_calculator, h, Fl.isFinite]
      | ninf => simp [isentropic_calculator, h, Fl.isFinite]
      | nan => simp [isentropic_calculator, h, Fl.isFinite]
  · unfold resolve_M
    split_ifs with h1 h2 h3 h4 h5 <;> simp_all
  · intro m h hm
    simp [isentropic_calculator, h, hm]

/-- Witness for C1's amended theorem at a concrete recognized input. -/
theorem calculator_none_iff_unrecognized_or_nonfinite_witness :
    isentropic_calculator "Mach" (.fin 2) (7 / 5) "subsonic" =
      .ratios ⟨2, T0_over_T 2 (7 / 5), P0_over_P 2 (7 / 5), rho0_over_rho 2 (7 / 5),
               A_over_Astar 2 (7 / 5)⟩ :=
  (calculator_none_iff_unrecognized_or_nonfinite "Mach" (.fin 2) (7 / 5) "subsonic"
    (by norm_num)).2.2 2 (by simp [resolve_M]) (by norm_num)

/-- C1 counterexample: at the recognized kind `"Mach"` with the finite
value 0 the call neither returns `None` nor a ratio set — composing the
`A/A*` entry divides by zero and the exception propagates. -/
theorem calculator_mach_zero_raises :
    isentropic_calculator "Mach" (.fin 0) (7 / 5) "subsonic" = .raised ∧
    (Fl.fin 0).isFinite = true := by
  constructor
  · simp [isentropic_calculator, resolve_M]
  · rfl

/-- C3: for every γ > 1, `mach_from_T0T` returns `nan` on inputs strictly
below 1, returns exactly `sqrt((2/(γ-1)) * (T0T - 1))` on inputs ≥ 1, and
the façade call with kind `T0/T` and value 0.5 yields the failure result. -/
theorem machFromT0T_spec (gamma : ℝ) (hgamma : 1 < gamma) :
    (∀ v : ℝ, v < 1 → mach_from_T0T (.fin v) gamma = .nan) ∧
    (∀ v : ℝ, 1 ≤ v → mach_from_T0T (.fin v) gamma =
        .fin (Real.sqrt (2 / (gamma - 1) * (v - 1)))) ∧
    isentropic_calculator "T0/T" (.fin 0.5) gamma "subsonic" = .noResult := by
  refine ⟨fun v hv => mach_from_T0T_fin_lt _ _ hv,
          fun v hv => mach_from_T0T_fin_ge _ _ (not_lt.mpr hv), ?_⟩
  have h : mach_from_T0T (.fin 0.5) gamma = .nan :=
    mach_from_T0T_fin_lt _ _ (by norm_num)
  simp [isentropic_calculator, resolve_M, h]

/-- Witness for C3 at γ = 2, value 0.5. -/
theorem machFromT0T_spec_witness :
    mach_from_T0T (.fin 0.5) 2 = Fl.nan :=
  (machFromT0T_spec 2 (by norm_num)).1 0.5 (by norm_num)

/-- C7 (amended): with γ > 1, the only error channel of
`isentropic_calculator` besides returning `None` is the `ZeroDivisionError`
raised by the `1 / M` factor of the `A/A*` entry, and it occurs exactly
when the resolved Mach number is finite and equal to 0. -/
theorem calculator_raises_iff_resolved_zero
    (input_type : String) (input_value : Fl) (gamma : ℝ) (branch : String)
    (hgamma : 1 < gamma) :
    isentropic_calculator input_type input_value gamma branch = .raised ↔
      resolve_M input_type input_value gamma branch = some (.fin 0) := by
  rcases h : resolve_M input_type input_value gamma branch with _ | F
  · simp [isentropic_calculator, h]
  · cases F with
    | fin m =>
      by_cases hm : m = 0
      · subst hm; simp [isentropic_calculator, h]
      · simp [isentropic_calculator, h, hm]
    | pinf => simp [isentropic_calculator, h]
    | ninf => simp [isentropic_calculator, h]
    | nan => simp [isentropic_calculator, h]

/-- Witness for C7's amended theorem at a concrete input. -/
theorem calculator_raises_iff_resolved_zero_witness :
    isentropic_calculator "P0/P" (.fin 2) (7 / 5) "subsonic" = .raised ↔
      resolve_M "P0/P" (.fin 2) (7 / 5) "subsonic" = some (.fin 0) :=
  calculator_raises_iff_resolved_zero "P0/P" (.fin 2) (7 / 5) "subsonic" (by norm_num)

/-- C7 counterexample: the recognized kind `T0/T` with value 1 resolves to
the finite Mach number 0 (`sqrt(0)`), and the call then raises a
`ZeroDivisionError` that reaches the caller instead of an absent result. -/
theorem calculator_T0T_one_raises :
    isentropic_calculator "T0/T" (.fin 1) (7 / 5) "subsonic" = .raised := by
  have h : mach_from_T0T (.fin 1) (7 / 5) = .fin 0 := by
    rw [mach_from_T0T_fin_ge _ _ (by norm_num),
        show (2 / ((7 : ℝ) / 5 - 1) * (1 - 1)) = 0 by ring, Real.sqrt_zero]
  simp [isentropic_calculator, resolve_M, h]

/-- C9: the `"Mach"` dispatch applies no nonnegativity check: every finite
negative input yields the full five-entry ratio set computed at that
negative Mach number, and the input 0 makes the `1 / M` factor of the
`A/A*` entry divide by zero. -/
theorem calculator_negative_mach (gamma : ℝ) (branch : String) (hgamma : 1 < gamma) :
    (∀ m : ℝ, m < 0 → isentropic_calculator "Mach" (.fin m) gamma branch =
      .ratios ⟨m, T0_over_T m gamma, P0_over_P m gamma, rho0_over_rho m gamma,
               A_over_Astar m gamma⟩) ∧
    isentropic_calculator "Mach" (.fin 0) gamma branch = .raised := by
  constructor
  · intro m hm
    simp [isentropic_calculator, resolve_M, ne_of_lt hm]
  · simp [isentropic_calculator, resolve_M]

/-- Witness for C9 at M = -2, γ = 1.4. -/
theorem calculator_negative_mach_witness :
    isentropic_calculator "Mach" (.fin (-2)) (7 / 5) "subsonic" =
      .ratios ⟨-2, T0_over_T (-2) (7 / 5), P0_over_P (-2) (7 / 5),
               rho0_over_rho (-2) (7 / 5), A_over_Astar (-2) (7 / 5)⟩ :=
  (calculator_negative_mach (7 / 5) "subsonic" (by norm_num)).1 (-2) (by norm_num)

/-- C10: any branch string other than exactly `"subsonic"` is treated as
supersonic: for inputs not rejected by the `Aa < 1` guard,
`mach_from_AAstar` solves over the supersonic bracket `[1 + 1e-8, 50]`. -/
theorem machFromAAstar_branch_default_supersonic (gamma v : ℝ) (branch : String)
    (hbr : branch ≠ "subsonic") (hv : ¬ v < 1) :
    mach_from_AAstar (.fin v) gamma branch =
      solve_bisection (fun M => A_over_Astar M gamma) (.fin v) (1 + 1e-8) 50
        1e-10 200 := by
  simp [mach_from_AAstar, Fl.lt, hv, hbr]

/-- Witness for C10 with the misspelled branch string `"Supersonic"`. -/
theorem machFromAAstar_branch_default_supersonic_witness :
    mach_from_AAstar (.fin 3) (7 / 5) "Supersonic" =
      solve_bisection (fun M => A_over_Astar M (7 / 5)) (.fin 3) (1 + 1e-8) 50
        1e-10 200 :=
  machFromAAstar_branch_default_supersonic (7 / 5) 3 "Supersonic" (by decide)
    (by norm_num)

/-! ### Monotonicity of the relations (claim C6) -/

lemma T0_ge_one {gamma : ℝ} (h : 1 < gamma) (M : ℝ) : 1 ≤ T0_over_T M gamma := by
  unfold T0_over_T
  nlinarith [sq_nonneg M]

lemma T0_pos {gamma : ℝ} (h : 1 < gamma) (M : ℝ) : 0 < T0_over_T M gamma :=
  lt_of_lt_of_le one_pos (T0_ge_one h M)

lemma strictMonoOn_T0 {gamma : ℝ} (h : 1 < gamma) :
    StrictMonoOn (fun M => T0_over_T M gamma) (Set.Ici 0) := by
  intro a ha b hb hab
  simp only [T0_over_T]
  have ha' : (0 : ℝ) ≤ a := ha
  have h2 : a ^ 2 < b ^ 2 := by nlinarith
  have h3 : 0 < (gamma - 1) / 2 := by linarith
  nlinarith

lemma strictMonoOn_P0 {gamma : ℝ} (h : 1 < gamma) :
    StrictMonoOn (fun M => P0_over_P M gamma) (Set.Ici 0) := by
  intro a ha b hb hab
  simp only [P0_over_P]
  exact Real.rpow_lt_rpow (le_of_lt (T0_pos h a)) (strictMonoOn_T0 h ha hb hab)
    (div_pos (by linarith) (by linarith))

lemma strictMonoOn_rho0 {gamma : ℝ} (h : 1 < gamma) :
    StrictMonoOn (fun M => rho0_over_rho M gamma) (Set.Ici 0) := by
  intro a ha b hb hab
  simp only [rho0_over_rho]
  exact Real.rpow_lt_rpow (le_of_lt (T0_pos h a)) (strictMonoOn_T0 h ha hb hab)
    (div_pos one_pos (by linarith))

lemma base_pos {gamma : ℝ} (h : 1 < gamma) (M : ℝ) :
    0 < 2 / (gamma + 1) * T0_over_T M gamma :=
  mul_pos (div_pos two_pos (by linarith)) (T0_pos h M)

lemma A_hasDerivAt {gamma M : ℝ} (h : 1 < gamma) (hM : M ≠ 0) :
    HasDerivAt (fun x => A_over_Astar x gamma)
      ((2 / (gamma + 1) * T0_over_T M gamma) ^ ((gamma + 1) / (2 * (gamma - 1)) - 1) *
        (2 / (gamma + 1)) * ((M ^ 2 - 1) / M ^ 2)) M := by
  have hg0 : gamma + 1 ≠ 0 := by linarith
  have hg1 : gamma - 1 ≠ 0 := by linarith
  have hT : HasDerivAt (fun x : ℝ => T0_over_T x gamma) ((gamma - 1) * M) M := by
    have hp : HasDerivAt (fun x : ℝ => x ^ 2) (2 * M) M := by
      simpa using hasDerivAt_pow 2 M
    have h2 := (hp.const_mul ((gamma - 1) / 2)).const_add 1
    simp only [T0_over_T]
    convert h2 using 1
    ring
  have hB := hT.const_mul (2 / (gamma + 1))
  have hBpos := base_pos h M
  have hpow := hB.rpow_const (p := (gamma + 1) / (2 * (gamma - 1))) (Or.inl hBpos.ne')
  have hinv := hasDerivAt_inv hM
  have hmul := hinv.mul hpow
  have hfun : (fun x => A_over_Astar x gamma) =
      fun x => x⁻¹ * ((2 / (gamma + 1) * T0_over_T x gamma) ^
        ((gamma + 1) / (2 * (gamma - 1)))) := by
    funext x
    simp [A_over_Astar, one_div]
  rw [hfun]
  convert hmul using 1
  have hBe : (2 / (gamma + 1) * T0_over_T M gamma) ^ ((gamma + 1) / (2 * (gamma - 1))) =
      (2 / (gamma + 1) * T0_over_T M gamma) ^ ((gamma + 1) / (2 * (gamma - 1)) - 1) *
        (2 / (gamma + 1) * T0_over_T M gamma) := by
    rw [Real.rpow_sub_one hBpos.ne', div_mul_cancel₀ _ hBpos.ne']
  rw [hBe]
  simp only [T0_over_T]
  field_simp
  ring

lemma A_strictMonoOn {gamma : ℝ} (h : 1 < gamma) :
    StrictMonoOn (fun M => A_over_Astar M gamma) (Set.Ici 1) := by
  apply strictMonoOn_of_deriv_pos (convex_Ici 1)
  · intro x hx
    have hx0 : x ≠ 0 := by
      have : (1 : ℝ) ≤ x := hx
      linarith
    exact (A_hasDerivAt h hx0).continuousAt.continuousWithinAt
  · intro x hx
    rw [interior_Ici] at hx
    have hx1 : (1 : ℝ) < x := hx
    have hx0 : x ≠ 0 := by linarith
    rw [(A_hasDerivAt h hx0).deriv]
    refine mul_pos (mul_pos ?_ ?_) ?_
    · exact Real.rpow_pos_of_pos (base_pos h x) _
    · exact div_pos two_pos (by linarith)
    · exact div_pos (by nlinarith) (pow_pos (by linarith) 2)

lemma A_strictAntiOn {gamma : ℝ} (h : 1 < gamma) :
    StrictAntiOn (fun M => A_over_Astar M gamma) (Set.Ioc 0 1) := by
  apply strictAntiOn_of_deriv_neg (convex_Ioc 0 1)
  · intro x hx
    exact (A_hasDerivAt h (ne_of_gt hx.1)).continuousAt.continuousWithinAt
  · intro x hx
    rw [interior_Ioc] at hx
    rw [(A_hasDerivAt h (ne_of_gt hx.1)).deriv]
    refine mul_neg_of_pos_of_neg (mul_pos ?_ ?_) ?_
    · exact Real.rpow_pos_of_pos (base_pos h x) _
    · exact div_pos two_pos (by linarith)
    · exact div_neg_of_neg_of_pos (by nlinarith [hx.1, hx.2]) (pow_pos hx.1 2)

lemma A_one {gamma : ℝ} (h : 1 < gamma) : A_over_Astar 1 gamma = 1 := by
  have hg0 : gamma + 1 ≠ 0 := by linarith
  unfold A_over_Astar T0_over_T
  rw [show 2 / (gamma + 1) * (1 + (gamma - 1) / 2 * 1 ^ 2) = 1 by field_simp; ring]
  simp [Real.one_rpow]

lemma A_gt_one_subsonic {gamma M : ℝ} (h : 1 < gamma) (h0 : 0 < M) (h1 : M < 1) :
    1 < A_over_Astar M gamma := by
  have hlt := A_strictAntiOn h ⟨h0, le_of_lt h1⟩ ⟨one_pos, le_refl 1⟩ h1
  simpa [A_one h] using hlt

lemma A_gt_one_supersonic {gamma M : ℝ} (h : 1 < gamma) (h1 : 1 < M) :
    1 < A_over_Astar M gamma := by
  have hlt := A_strictMonoOn h (Set.left_mem_Ici) (Set.mem_Ici.mpr (le_of_lt h1)) h1
  simpa [A_one h] using hlt

/-- C6: for every γ > 1 the relations `T0_over_T`, `P0_over_P`,
`rho0_over_rho` are strictly increasing in `M` on `[0, ∞)`;
`A_over_Astar` is strictly decreasing on `(0, 1)` and strictly increasing
on `(1, ∞)`, with `A_over_Astar 1 γ = 1` exactly. -/
theorem relations_monotonicity (gamma : ℝ) (hgamma : 1 < gamma) :
    StrictMonoOn (fun M => T0_over_T M gamma) (Set.Ici 0) ∧
    StrictMonoOn (fun M => P0_over_P M gamma) (Set.Ici 0) ∧
    StrictMonoOn (fun M => rho0_over_rho M gamma) (Set.Ici 0) ∧
    StrictAntiOn (fun M => A_over_Astar M gamma) (Set.Ioo 0 1) ∧
    StrictMonoOn (fun M => A_over_Astar M gamma) (Set.Ioi 1) ∧
    A_over_Astar 1 gamma = 1 :=
  ⟨strictMonoOn_T0 hgamma, strictMonoOn_P0 hgamma, strictMonoOn_rho0 hgamma,
   (A_strictAntiOn hgamma).mono Set.Ioo_subset_Ioc_self,
   (A_strictMonoOn hgamma).mono Set.Ioi_subset_Ici_self,
   A_one hgamma⟩

/-- Witness for C6 at γ = 2. -/
theorem relations_monotonicity_witness :
    (1 : ℝ) < 2 ∧ StrictMonoOn (fun M => T0_over_T M 2) (Set.Ici 0) ∧
      A_over_Astar 1 2 = 1 :=
  ⟨by norm_num, (relations_monotonicity 2 (by norm_num)).1,
   (relations_monotonicity 2 (by norm_num)).2.2.2.2.2⟩

/-! ### Bisection loop invariants (claims C5, C8, C2) -/

lemma bisect_loop_mem (f : ℝ → ℝ) (t tol : ℝ) :
    ∀ (n : ℕ) (fa a b : ℝ), a ≤ b → bisect_loop f t fa a b tol n ∈ Set.Icc a b
  | 0, fa, a, b, hab => ⟨by simp only [bisect_loop]; linarith,
                         by simp only [bisect_loop]; linarith⟩
  | n + 1, fa, a, b, hab => by
    simp only [bisect_loop]
    split_ifs with h1 h2
    · exact ⟨by linarith, by linarith⟩
    · have := bisect_loop_mem f t tol n fa a (0.5 * (a + b)) (by linarith)
      exact ⟨this.1, le_trans this.2 (by linarith)⟩
    · have := bisect_loop_mem f t tol n (f (0.5 * (a + b)) - t) (0.5 * (a + b)) b
        (by linarith)
      exact ⟨le_trans (by linarith) this.1, this.2⟩

lemma bisect_loop_cases (f : ℝ → ℝ) (t tol : ℝ) :
    ∀ (n : ℕ) (fa a b : ℝ), a ≤ b →
      |f (bisect_loop f t fa a b tol n) - t| < tol ∨
      ∃ a' b', a ≤ a' ∧ a' ≤ b' ∧ b' ≤ b ∧ b' - a' = (b - a) / 2 ^ n ∧
        bisect_loop f t fa a b tol n = 0.5 * (a' + b')
  | 0, fa, a, b, hab => Or.inr ⟨a, b, le_refl a, hab, le_refl b, by norm_num,
      by simp only [bisect_loop]⟩
  | n + 1, fa, a, b, hab => by
    have hw : ∀ c d : ℝ, d - c = (b - a) / 2 → (d - c) / 2 ^ n = (b - a) / 2 ^ (n + 1) := by
      intro c d hcd
      rw [hcd, div_div, ← pow_succ']
    simp only [bisect_loop]
    split_ifs with h1 h2
    · exact Or.inl h1
    · rcases bisect_loop_cases f t tol n fa a (0.5 * (a + b)) (by linarith) with h | h
      · exact Or.inl h
      · obtain ⟨a', b', haa, hab', hbb, hwid, heq⟩ := h
        exact Or.inr ⟨a', b', haa, hab', le_trans hbb (by linarith),
          by rw [hwid]; exact hw a (0.5 * (a + b)) (by ring), heq⟩
    · rcases bisect_loop_cases f t tol n (f (0.5 * (a + b)) - t) (0.5 * (a + b)) b
        (by linarith) with h | h
      · exact Or.inl h
      · obtain ⟨a', b', haa, hab', hbb, hwid, heq⟩ := h
        exact Or.inr ⟨a', b', le_trans (by linarith) haa, hab', hbb,
          by rw [hwid]; exact hw (0.5 * (a + b)) b (by ring), heq⟩

lemma bisect_steps_le (f : ℝ → ℝ) (t tol : ℝ) :
    ∀ (n : ℕ) (fa a b : ℝ), bisect_steps f t fa a b tol n ≤ n
  | 0, fa, a, b => le_refl 0
  | n + 1, fa, a, b => by
    simp only [bisect_steps]
    split_ifs with h1 h2
    · omega
    · have := bisect_steps_le f t tol n fa a (0.5 * (a + b))
      omega
    · have := bisect_steps_le f t tol n (f (0.5 * (a + b)) - t) (0.5 * (a + b)) b
      omega

/-- C5: contract of `solve_bisection` at its default tolerance `1e-10` and
iteration cap `200`, for a finite target: it returns `nan` exactly when the
endpoint residuals have a positive product (no sign change); otherwise it
returns a finite midpoint in the bracket which either meets the residual
tolerance (early termination) or is the midpoint of the final bracket,
whose width is the original width halved 200 times. -/
theorem solve_bisection_contract (f : ℝ → ℝ) (t a b : ℝ) (hab : a ≤ b) :
    (solve_bisection f (.fin t) a b 1e-10 200 = Fl.nan ↔
      0 < (f a - t) * (f b - t)) ∧
    (¬ 0 < (f a - t) * (f b - t) →
      ∃ m, solve_bisection f (.fin t) a b 1e-10 200 = .fin m) ∧
    (∀ m : ℝ, solve_bisection f (.fin t) a b 1e-10 200 = .fin m →
      a ≤ m ∧ m ≤ b ∧
      (|f m - t| < 1e-10 ∨
        ∃ a' b', a ≤ a' ∧ a' ≤ b' ∧ b' ≤ b ∧ b' - a' = (b - a) / 2 ^ 200 ∧
          m = 0.5 * (a' + b'))) := by
  rw [solve_bisection_fin]
  split_ifs with h
  · refine ⟨by simp [h], fun hc => absurd h hc, ?_⟩
    intro m hm
    exact absurd hm (by simp)
  · refine ⟨by simp [h], fun _ => ⟨_, rfl⟩, ?_⟩
    intro m hm
    have hm' : bisect_loop f t (f a - t) a b 1e-10 200 = m := by
      cases hm
      rfl
    subst hm'
    have hmem := bisect_loop_mem f t 1e-10 200 (f a - t) a b hab
    refine ⟨hmem.1, hmem.2, ?_⟩
    rcases bisect_loop_cases f t 1e-10 200 (f a - t) a b hab with hc | hc
    · exact Or.inl hc
    · obtain ⟨a', b', h1, h2, h3, h4, h5⟩ := hc
      exact Or.inr ⟨a', b', h1, h2, h3, h4, h5⟩

/-- Witness for C5 at `f = id`, target 0, bracket `[-1, 1]`. -/
theorem solve_bisection_contract_witness :
    (-1 : ℝ) ≤ 1 ∧
    (solve_bisection (fun x => x) (.fin 0) (-1) 1 1e-10 200 = Fl.nan ↔
      0 < ((-1 : ℝ) - 0) * ((1 : ℝ) - 0)) :=
  ⟨by norm_num, (solve_bisection_contract (fun x => x) 0 (-1) 1 (by norm_num)).1⟩

/-- C8: the bisection loop executes at most `max_iter` iterations of work
for any fuel `n` (in particular 200 at the source's default), and every
`isentropic_calculator` call completes with one of the three possible
outcomes (exception at resolved M = 0, absent result, or a ratio set). -/
theorem bisection_terminates :
    (∀ (f : ℝ → ℝ) (t fa a b tol : ℝ) (n : ℕ), bisect_steps f t fa a b tol n ≤ n) ∧
    (∀ (input_type : String) (input_value : Fl) (gamma : ℝ) (branch : String),
      isentropic_calculator input_type input_value gamma branch = .raised ∨
      isentropic_calculator input_type input_value gamma branch = .noResult ∨
      ∃ rs : RatioSet,
        isentropic_calculator input_type input_value gamma branch = .ratios rs) := by
  constructor
  · intro f t fa a b tol n
    exact bisect_steps_le f t tol n fa a b
  · intro input_type input_value gamma branch
    rcases h : isentropic_calculator input_type input_value gamma branch with _ | _ | rs
    · exact Or.inl rfl
    · exact Or.inr (Or.inl rfl)
    · exact Or.inr (Or.inr ⟨rs, rfl⟩)

/-! ### Round-trip analysis (claim C2) -/

lemma bisect_loop_locates (f : ℝ → ℝ) (M tol : ℝ) :
    ∀ (n : ℕ) (a b : ℝ), a ≤ M → M ≤ b → StrictMonoOn f (Set.Icc a b) →
      |f (bisect_loop f (f M) (f a - f M) a b tol n) - f M| < tol ∨
      |bisect_loop f (f M) (f a - f M) a b tol n - M| ≤ (b - a) / 2 ^ (n + 1)
  | 0, a, b, ha, hb, hmono => by
    simp only [bisect_loop]
    right
    rw [pow_one, abs_le]
    constructor <;> linarith
  | n + 1, a, b, ha, hb, hmono => by
    have hab : a ≤ b := le_trans ha hb
    have hamid : a ≤ 0.5 * (a + b) := by linarith
    have hmidb : 0.5 * (a + b) ≤ b := by linarith
    simp only [bisect_loop]
    split_ifs with h1 h2
    · exact Or.inl h1
    · -- kept bracket [a, mid]; show M ≤ mid
      have hMmid : M ≤ 0.5 * (a + b) := by
        by_contra hc
        push_neg at hc
        have hmidmem : 0.5 * (a + b) ∈ Set.Icc a b := ⟨hamid, hmidb⟩
        have hMmem : M ∈ Set.Icc a b := ⟨ha, hb⟩
        have hfm : f (0.5 * (a + b)) < f M := hmono hmidmem hMmem hc
        have hfa : f a - f M < 0 := by
          have haM : a < M := lt_of_le_of_lt hamid hc
          have := hmono ⟨le_refl a, hab⟩ hMmem haM
          linarith
        have : 0 < (f a - f M) * (f (0.5 * (a + b)) - f M) :=
          mul_pos_of_neg_of_neg hfa (by linarith)
        linarith
      have hsub : Set.Icc a (0.5 * (a + b)) ⊆ Set.Icc a b :=
        Set.Icc_subset_Icc (le_refl a) hmidb
      rcases bisect_loop_locates f M tol n a (0.5 * (a + b)) ha hMmid
          (hmono.mono hsub) with h | h
      · exact Or.inl h
      · right
        have heq : (0.5 * (a + b) - a) / 2 ^ (n + 1) = (b - a) / 2 ^ (n + 1 + 1) := by
          rw [show (0.5 * (a + b) - a) = (b - a) / 2 by ring, div_div, ← pow_succ']
        rw [heq] at h
        exact h
    · -- kept bracket [mid, b]; show mid ≤ M
      have hmidM : 0.5 * (a + b) ≤ M := by
        by_contra hc
        push_neg at hc
        have hmidmem : 0.5 * (a + b) ∈ Set.Icc a b := ⟨hamid, hmidb⟩
        have hMmem : M ∈ Set.Icc a b := ⟨ha, hb⟩
        have hfm : f M < f (0.5 * (a + b)) := hmono hMmem hmidmem hc
        have hfa : f a - f M ≤ 0 := by
          rcases eq_or_lt_of_le ha with rfl | haM
          · simp
          · have := hmono ⟨le_refl a, hab⟩ hMmem haM
            linarith
        have : (f a - f M) * (f (0.5 * (a + b)) - f M) ≤ 0 :=
          mul_nonpos_of_nonpos_of_nonneg hfa (by linarith)
        exact h2 this
      have hsub : Set.Icc (0.5 * (a + b)) b ⊆ Set.Icc a b :=
        Set.Icc_subset_Icc hamid (le_refl b)
      rcases bisect_loop_locates f M tol n (0.5 * (a + b)) b hmidM hb
          (hmono.mono hsub) with h | h
      · exact Or.inl h
      · right
        have heq : (b - 0.5 * (a + b)) / 2 ^ (n + 1) = (b - a) / 2 ^ (n + 1 + 1) := by
          rw [show (b - 0.5 * (a + b)) = (b - a) / 2 by ring, div_div, ← pow_succ']
        rw [heq] at h
        exact h

lemma solve_bisection_roundtrip_mono (f : ℝ → ℝ) (M a b tol : ℝ) (n : ℕ)
    (ha : a ≤ M) (hb : M ≤ b) (hmono : StrictMonoOn f (Set.Icc a b)) :
    ∃ x, solve_bisection f (.fin (f M)) a b tol n = .fin x ∧ a ≤ x ∧ x ≤ b ∧
      (|f x - f M| < tol ∨ |x - M| ≤ (b - a) / 2 ^ (n + 1)) := by
  have hab : a ≤ b := le_trans ha hb
  have hfa : f a - f M ≤ 0 := by
    rcases eq_or_lt_of_le ha with rfl | h
    · simp
    · have := hmono ⟨le_refl a, hab⟩ ⟨ha, hb⟩ h
      linarith
  have hfb : 0 ≤ f b - f M := by
    rcases eq_or_lt_of_le hb with rfl | h
    · simp
    · have := hmono ⟨ha, hb⟩ ⟨hab, le_refl b⟩ h
      linarith
  have hsign : ¬ 0 < (f a - f M) * (f b - f M) := by nlinarith
  rw [solve_bisection_fin, if_neg hsign]
  have hmem := bisect_loop_mem f (f M) tol n (f a - f M) a b hab
  exact ⟨_, rfl, hmem.1, hmem.2, bisect_loop_locates f M tol n a b ha hb hmono⟩

lemma bisect_loop_neg (f : ℝ → ℝ) (tol : ℝ) :
    ∀ (n : ℕ) (t fa a b : ℝ),
      bisect_loop (fun x => -f x) (-t) (-fa) a b tol n = bisect_loop f t fa a b tol n
  | 0, t, fa, a, b => rfl
  | n + 1, t, fa, a, b => by
    simp only [bisect_loop]
    rw [show -f (0.5 * (a + b)) - -t = -(f (0.5 * (a + b)) - t) by ring, abs_neg,
        show -fa * -(f (0.5 * (a + b)) - t) = fa * (f (0.5 * (a + b)) - t) by ring]
    split_ifs with h1 h2
    · rfl
    · exact bisect_loop_neg f tol n t fa a _
    · exact bisect_loop_neg f tol n t _ _ b

lemma solve_bisection_neg (f : ℝ → ℝ) (t a b tol : ℝ) (n : ℕ) :
    solve_bisection (fun x => -f x) (.fin (-t)) a b tol n =
      solve_bisection f (.fin t) a b tol n := by
  rw [solve_bisection_fin, solve_bisection_fin]
  rw [show (-f a - -t) * (-f b - -t) = (f a - t) * (f b - t) by ring,
      show -f a - -t = -(f a - t) by ring, bisect_loop_neg]

lemma solve_bisection_roundtrip_anti (f : ℝ → ℝ) (M a b tol : ℝ) (n : ℕ)
    (ha : a ≤ M) (hb : M ≤ b) (hanti : StrictAntiOn f (Set.Icc a b)) :
    ∃ x, solve_bisection f (.fin (f M)) a b tol n = .fin x ∧ a ≤ x ∧ x ≤ b ∧
      (|f x - f M| < tol ∨ |x - M| ≤ (b - a) / 2 ^ (n + 1)) := by
  have hmono : StrictMonoOn (fun x => -f x) (Set.Icc a b) :=
    fun u hu v hv huv => neg_lt_neg (hanti hu hv huv)
  obtain ⟨x, hx, hxa, hxb, hd⟩ :=
    solve_bisection_roundtrip_mono (fun x => -f x) M a b tol n ha hb hmono
  rw [solve_bisection_neg] at hx
  refine ⟨x, hx, hxa, hxb, ?_⟩
  rcases hd with hd | hd
  · left
    rw [show -f x - -f M = -(f x - f M) by ring, abs_neg] at hd
    exact hd
  · exact Or.inr hd

lemma mach_from_AAstar_sub_eq (gamma v : ℝ) (hv : ¬ v < 1) :
    mach_from_AAstar (.fin v) gamma "subsonic" =
      solve_bisection (fun M => A_over_Astar M gamma) (.fin v) 1e-8 (1 - 1e-8)
        1e-10 200 := by
  simp [mach_from_AAstar, Fl.lt, hv]

lemma mach_from_AAstar_sup_eq (gamma v : ℝ) (hv : ¬ v < 1) :
    mach_from_AAstar (.fin v) gamma "supersonic" =
      solve_bisection (fun M => A_over_Astar M gamma) (.fin v) (1 + 1e-8) 50
        1e-10 200 := by
  simp [mach_from_AAstar, Fl.lt, hv]

/-- C2 (amended): for every γ > 1, feeding the computed ratios back through
their inverse mappings recovers `M` in the following sense.  The `T0/T`
round trip is exact for every `M > 0`.  For the bisection-based ratios with
`M` inside the matching solver bracket, the inverse returns a finite value
`x` in the bracket with either residual `|ratio(x) - ratio(M)| < 1e-10`
(early termination at the solver tolerance) or `|x - M|` at most the
bracket width divided by `2^201`.  Outside the brackets (e.g. `M < 1e-8`)
the inverse can return `nan` — see the counterexample — so the claimed
uniform ≈1e-6 relative recovery over all of `(0, 50)` does not hold. -/
theorem roundtrip_amended (gamma : ℝ) (hgamma : 1 < gamma) :
    (∀ M : ℝ, 0 < M → mach_from_T0T (.fin (T0_over_T M gamma)) gamma = .fin M) ∧
    (∀ M : ℝ, 1e-8 ≤ M → M ≤ 50 →
      ∃ x, mach_from_P0P (.fin (P0_over_P M gamma)) gamma = .fin x ∧
        1e-8 ≤ x ∧ x ≤ 50 ∧
        (|P0_over_P x gamma - P0_over_P M gamma| < 1e-10 ∨
          |x - M| ≤ (50 - 1e-8) / 2 ^ 201)) ∧
    (∀ M : ℝ, 1e-8 ≤ M → M ≤ 50 →
      ∃ x, mach_from_rho0rho (.fin (rho0_over_rho M gamma)) gamma = .fin x ∧
        1e-8 ≤ x ∧ x ≤ 50 ∧
        (|rho0_over_rho x gamma - rho0_over_rho M gamma| < 1e-10 ∨
          |x - M| ≤ (50 - 1e-8) / 2 ^ 201)) ∧
    (∀ M : ℝ, 1e-8 ≤ M → M ≤ 1 - 1e-8 →
      ∃ x, mach_from_AAstar (.fin (A_over_Astar M gamma)) gamma "subsonic" = .fin x ∧
        1e-8 ≤ x ∧ x ≤ 1 - 1e-8 ∧
        (|A_over_Astar x gamma - A_over_Astar M gamma| < 1e-10 ∨
          |x - M| ≤ (1 - 1e-8 - 1e-8) / 2 ^ 201)) ∧
    (∀ M : ℝ, 1 + 1e-8 ≤ M → M ≤ 50 →
      ∃ x, mach_from_AAstar (.fin (A_over_Astar M gamma)) gamma "supersonic" = .fin x ∧
        1 + 1e-8 ≤ x ∧ x ≤ 50 ∧
        (|A_over_Astar x gamma - A_over_Astar M gamma| < 1e-10 ∨
          |x - M| ≤ (50 - (1 + 1e-8)) / 2 ^ 201)) := by
  refine ⟨?_, ?_, ?_, ?_, ?_⟩
  · intro M hM
    have hT := T0_ge_one hgamma M
    rw [mach_from_T0T_fin_ge _ _ (not_lt.mpr hT)]
    rw [show 2 / (gamma - 1) * (T0_over_T M gamma - 1) = M ^ 2 by
          have hg1 : gamma - 1 ≠ 0 := by linarith
          unfold T0_over_T
          field_simp
          ring]
    rw [Real.sqrt_sq hM.le]
  · intro M h1 h2
    have hsub : Set.Icc (1e-8 : ℝ) 50 ⊆ Set.Ici 0 := fun x hx =>
      le_trans (by norm_num) hx.1
    obtain ⟨x, hx, hxa, hxb, hd⟩ :=
      solve_bisection_roundtrip_mono (fun M => P0_over_P M gamma) M 1e-8 50
        1e-10 200 h1 h2 ((strictMonoOn_P0 hgamma).mono hsub)
    exact ⟨x, hx, hxa, hxb, hd⟩
  · intro M h1 h2
    have hsub : Set.Icc (1e-8 : ℝ) 50 ⊆ Set.Ici 0 := fun x hx =>
      le_trans (by norm_num) hx.1
    obtain ⟨x, hx, hxa, hxb, hd⟩ :=
      solve_bisection_roundtrip_mono (fun M => rho0_over_rho M gamma) M 1e-8 50
        1e-10 200 h1 h2 ((strictMonoOn_rho0 hgamma).mono hsub)
    exact ⟨x, hx, hxa, hxb, hd⟩
  · intro M h1 h2
    have hM0 : (0 : ℝ) < M := lt_of_lt_of_le (by norm_num) h1
    have hM1 : M < 1 := lt_of_le_of_lt h2 (by norm_num)
    have hguard : ¬ A_over_Astar M gamma < 1 :=
      not_lt.mpr (le_of_lt (A_gt_one_subsonic hgamma hM0 hM1))
    have hsub : Set.Icc (1e-8 : ℝ) (1 - 1e-8) ⊆ Set.Ioc 0 1 := fun x hx =>
      ⟨lt_of_lt_of_le (by norm_num) hx.1, le_trans hx.2 (by norm_num)⟩
    obtain ⟨x, hx, hxa, hxb, hd⟩ :=
      solve_bisection_roundtrip_anti (fun M => A_over_Astar M gamma) M 1e-8
        (1 - 1e-8) 1e-10 200 h1 h2 ((A_strictAntiOn hgamma).mono hsub)
    exact ⟨x, by rw [mach_from_AAstar_sub_eq _ _ hguard]; exact hx, hxa, hxb, hd⟩
  · intro M h1 h2
    have hM1 : (1 : ℝ) < M := lt_of_lt_of_le (by norm_num) h1
    have hguard : ¬ A_over_Astar M gamma < 1 :=
      not_lt.mpr (le_of_lt (A_gt_one_supersonic hgamma hM1))
    have hsub : Set.Icc (1 + 1e-8 : ℝ) 50 ⊆ Set.Ici 1 := fun x hx =>
      le_trans (by norm_num) hx.1
    obtain ⟨x, hx, hxa, hxb, hd⟩ :=
      solve_bisection_roundtrip_mono (fun M => A_over_Astar M gamma) M (1 + 1e-8)
        50 1e-10 200 h1 h2 ((A_strictMonoOn hgamma).mono hsub)
    exact ⟨x, by rw [mach_from_AAstar_sup_eq _ _ hguard]; exact hx, hxa, hxb, hd⟩

/-- Witness for C2's amended theorem: the exact `T0/T` round trip at
γ = 1.4, M = 1. -/
theorem roundtrip_amended_witness :
    mach_from_T0T (.fin (T0_over_T 1 (7 / 5))) (7 / 5) = .fin 1 :=
  (roundtrip_amended (7 / 5) (by norm_num)).1 1 (by norm_num)

/-- C2 counterexample: at γ = 1.4 and M = 1e-9 ∈ (0, 50), the `P0/P` round
trip does not recover `M` at all — the target lies below the solver bracket
`[1e-8, 50]`, both endpoint residuals are positive, and `mach_from_P0P`
returns `nan`. -/
theorem machFromP0P_roundtrip_fails_below_bracket :
    mach_from_P0P (.fin (P0_over_P 1e-9 (7 / 5))) (7 / 5) = Fl.nan := by
  have hg : (1 : ℝ) < 7 / 5 := by norm_num
  have hmono := strictMonoOn_P0 hg
  have h1 : P0_over_P 1e-9 (7 / 5) < P0_over_P 1e-8 (7 / 5) :=
    hmono (Set.mem_Ici.mpr (by norm_num)) (Set.mem_Ici.mpr (by norm_num)) (by norm_num)
  have h2 : P0_over_P 1e-9 (7 / 5) < P0_over_P 50 (7 / 5) :=
    hmono (Set.mem_Ici.mpr (by norm_num)) (Set.mem_Ici.mpr (by norm_num)) (by norm_num)
  unfold mach_from_P0P
  rw [solve_bisection_fin]
  rw [if_pos]
  exact mul_pos (sub_pos.mpr h1) (sub_pos.mpr h2)

/-! ### Exact evaluation of the area-ratio inversion at γ = 1.4 (claim C4) -/

lemma A_over_Astar_cast (q : ℚ) :
    A_over_Astar (q : ℝ) (7 / 5) = (A_over_AstarQ q : ℝ) := by
  unfold A_over_Astar A_over_AstarQ T0_over_T
  rw [show ((7 : ℝ) / 5 + 1) / (2 * ((7 : ℝ) / 5 - 1)) = ((3 : ℕ) : ℝ) by norm_num,
      Real.rpow_natCast]
  push_cast
  ring

lemma bisect_loop_cast (f : ℚ → ℚ) (g : ℝ → ℝ)
    (hfg : ∀ q : ℚ, g (q : ℝ) = (f q : ℝ)) :
    ∀ (n : ℕ) (t fa a b tol : ℚ),
      bisect_loop g (t : ℝ) (fa : ℝ) (a : ℝ) (b : ℝ) (tol : ℝ) n =
        ((bisect_loopQ f t fa a b tol n : ℚ) : ℝ)
  | 0, t, fa, a, b, tol => by
    simp only [bisect_loop, bisect_loopQ]
    push_cast
    ring
  | n + 1, t, fa, a, b, tol => by
    have hmid : (0.5 : ℝ) * ((a : ℝ) + (b : ℝ)) = ((0.5 * (a + b) : ℚ) : ℝ) := by
      push_cast
      ring
    simp only [bisect_loop, bisect_loopQ]
    rw [hmid, hfg]
    by_cases h1 : |f (0.5 * (a + b)) - t| < tol
    · rw [if_pos (show |((f (0.5 * (a + b)) : ℚ) : ℝ) - (t : ℝ)| < (tol : ℝ) by
        exact_mod_cast h1), if_pos h1]
    · rw [if_neg (show ¬ |((f (0.5 * (a + b)) : ℚ) : ℝ) - (t : ℝ)| < (tol : ℝ) by
        exact_mod_cast h1), if_neg h1]
      by_cases h2 : fa * (f (0.5 * (a + b)) - t) ≤ 0
      · rw [if_pos (show ((fa : ℚ) : ℝ) * (((f (0.5 * (a + b)) : ℚ) : ℝ) - (t : ℝ)) ≤ 0 by
          exact_mod_cast h2), if_pos h2]
        exact bisect_loop_cast f g hfg n t fa a (0.5 * (a + b)) tol
      · rw [if_neg (show ¬ ((fa : ℚ) : ℝ) * (((f (0.5 * (a + b)) : ℚ) : ℝ) - (t : ℝ)) ≤ 0 by
          exact_mod_cast h2), if_neg h2]
        rw [show ((f (0.5 * (a + b)) : ℚ) : ℝ) - (t : ℝ) =
          ((f (0.5 * (a + b)) - t : ℚ) : ℝ) by push_cast; ring]
        exact bisect_loop_cast f g hfg n t (f (0.5 * (a + b)) - t) (0.5 * (a + b)) b tol

lemma AAstar_solve_cast (t a b tol : ℚ) (n : ℕ) :
    solve_bisection (fun M => A_over_Astar M (7 / 5)) (.fin (t : ℝ)) (a : ℝ) (b : ℝ)
        (tol : ℝ) n =
      if 0 < (A_over_AstarQ a - t) * (A_over_AstarQ b - t) then Fl.nan
      else .fin ((bisect_loopQ A_over_AstarQ t (A_over_AstarQ a - t) a b tol n : ℚ) : ℝ) := by
  rw [solve_bisection_fin]
  simp only [A_over_Astar_cast]
  by_cases h : 0 < (A_over_AstarQ a - t) * (A_over_AstarQ b - t)
  · rw [if_pos (show (0 : ℝ) < (((A_over_AstarQ a : ℚ) : ℝ) - (t : ℝ)) *
      (((A_over_AstarQ b : ℚ) : ℝ) - (t : ℝ)) by exact_mod_cast h), if_pos h]
  · rw [if_neg (show ¬ (0 : ℝ) < (((A_over_AstarQ a : ℚ) : ℝ) - (t : ℝ)) *
      (((A_over_AstarQ b : ℚ) : ℝ) - (t : ℝ)) by exact_mod_cast h), if_neg h]
    rw [show ((A_over_AstarQ a : ℚ) : ℝ) - (t : ℝ) = ((A_over_AstarQ a - t : ℚ) : ℝ) by
      push_cast; ring]
    rw [bisect_loop_cast A_over_AstarQ (fun M => A_over_Astar M (7 / 5)) A_over_Astar_cast]

set_option maxRecDepth 100000 in
attribute [local semireducible] Rat.add Rat.sub Rat.mul Rat.inv Rat.ofScientific in
/-- C4: `mach_from_AAstar` returns `nan` for every input strictly below 1;
for inputs not below 1 it solves by bisection over `[1e-8, 1 - 1e-8]` on
the subsonic branch and over `[1 + 1e-8, 50]` on any other branch; and at
`A/A* = 2`, γ = 1.4 the subsonic branch yields `M ≈ 0.3064` and the
supersonic branch `M ≈ 2.1972`, each reproducing `A_over_Astar ≈ 2` to
within the solver tolerance. -/
theorem machFromAAstar_spec :
    (∀ (gamma v : ℝ) (branch : String), v < 1 →
      mach_from_AAstar (.fin v) gamma branch = .nan) ∧
    (∀ (gamma v : ℝ), ¬ v < 1 →
      mach_from_AAstar (.fin v) gamma "subsonic" =
        solve_bisection (fun M => A_over_Astar M gamma) (.fin v) 1e-8 (1 - 1e-8)
          1e-10 200 ∧
      ∀ branch : String, branch ≠ "subsonic" →
        mach_from_AAstar (.fin v) gamma branch =
          solve_bisection (fun M => A_over_Astar M gamma) (.fin v) (1 + 1e-8) 50
            1e-10 200) ∧
    ((mach_from_AAstar (.fin 2) (7 / 5) "subsonic").isFinite = true ∧
      |(mach_from_AAstar (.fin 2) (7 / 5) "subsonic").toVal - 0.3064| < 1e-3 ∧
      |A_over_Astar (mach_from_AAstar (.fin 2) (7 / 5) "subsonic").toVal (7 / 5) - 2|
        < 1e-9) ∧
    ((mach_from_AAstar (.fin 2) (7 / 5) "supersonic").isFinite = true ∧
      |(mach_from_AAstar (.fin 2) (7 / 5) "supersonic").toVal - 2.1972| < 1e-3 ∧
      |A_over_Astar (mach_from_AAstar (.fin 2) (7 / 5) "supersonic").toVal (7 / 5) - 2|
        < 1e-9) := by
  refine ⟨?_, ?_, ?_, ?_⟩
  · intro gamma v branch hv
    simp [mach_from_AAstar, Fl.lt, hv]
  · intro gamma v hv
    refine ⟨mach_from_AAstar_sub_eq gamma v hv, fun branch hbr => ?_⟩
    simp [mach_from_AAstar, Fl.lt, hv, hbr]
  · rw [mach_from_AAstar_sub_eq _ _ (by norm_num)]
    rw [show (2 : ℝ) = ((2 : ℚ) : ℝ) by norm_num,
        show (1e-8 : ℝ) = ((1e-8 : ℚ) : ℝ) by norm_num,
        show ((1 : ℝ) - ((1e-8 : ℚ) : ℝ)) = ((1 - 1e-8 : ℚ) : ℝ) by push_cast; norm_num,
        show (1e-10 : ℝ) = ((1e-10 : ℚ) : ℝ) by norm_num,
        AAstar_solve_cast]
    rw [if_neg (by decide)]
    refine ⟨rfl, ?_, ?_⟩
    · simp only [Fl.toVal]
      rw [show (0.3064 : ℝ) = ((0.3064 : ℚ) : ℝ) by norm_num,
          show (1e-3 : ℝ) = ((1e-3 : ℚ) : ℝ) by norm_num]
      exact_mod_cast (show |bisect_loopQ A_over_AstarQ 2 (A_over_AstarQ 1e-8 - 2)
        1e-8 (1 - 1e-8) 1e-10 200 - 0.3064| < (1e-3 : ℚ) by decide)
    · simp only [Fl.toVal]
      rw [A_over_Astar_cast, show (1e-9 : ℝ) = ((1e-9 : ℚ) : ℝ) by norm_num]
      exact_mod_cast (show |A_over_AstarQ (bisect_loopQ A_over_AstarQ 2
        (A_over_AstarQ 1e-8 - 2) 1e-8 (1 - 1e-8) 1e-10 200) - 2| < (1e-9 : ℚ) by decide)
  · rw [mach_from_AAstar_sup_eq _ _ (by norm_num)]
    rw [show (2 : ℝ) = ((2 : ℚ) : ℝ) by norm_num,
        show ((1 : ℝ) + 1e-8) = ((1 + 1e-8 : ℚ) : ℝ) by push_cast; norm_num,
        show (50 : ℝ) = ((50 : ℚ) : ℝ) by norm_num,
        show (1e-10 : ℝ) = ((1e-10 : ℚ) : ℝ) by norm_num,
        AAstar_solve_cast]
    rw [if_neg (by decide)]
    refine ⟨rfl, ?_, ?_⟩
    · simp only [Fl.toVal]
      rw [show (2.1972 : ℝ) = ((2.1972 : ℚ) : ℝ) by norm_num,
          show (1e-3 : ℝ) = ((1e-3 : ℚ) : ℝ) by norm_num]
      exact_mod_cast (show |bisect_loopQ A_over_AstarQ 2 (A_over_AstarQ (1 + 1e-8) - 2)
        (1 + 1e-8) 50 1e-10 200 - 2.1972| < (1e-3 : ℚ) by decide)
    · simp only [Fl.toVal]
      rw [A_over_Astar_cast, show (1e-9 : ℝ) = ((1e-9 : ℚ) : ℝ) by norm_num]
      exact_mod_cast (show |A_over_AstarQ (bisect_loopQ A_over_AstarQ 2
        (A_over_AstarQ (1 + 1e-8) - 2) (1 + 1e-8) 50 1e-10 200) - 2| < (1e-9 : ℚ) by decide)

/-- Witness for C4 at the rejected input 0.5. -/
theorem machFromAAstar_spec_witness :
    mach_from_AAstar (.fin 0.5) (7 / 5) "subsonic" = Fl.nan :=
  machFromAAstar_spec.1 (7 / 5) 0.5 "subsonic" (by norm_num)
